import Mathlib

/-
  Verification of the browser rendering core: HTML parsing (requests.py),
  CSS parsing and the style cascade (cssparser.py), and the layout engine
  (layout.py), embedded shallowly in Lean 4.

  Modelling conventions:
  * Python ints and pixel coordinates are `Int`; CSS numeric values, which
    the source stores in strings such as "16px" and manipulates with
    `float(...)`, are `Rat` (all arithmetic performed by the source on the
    inputs of interest is exact in binary64, so `Rat` is faithful).
  * Python dicts keyed by strings are association lists with
    insert-or-overwrite semantics preserving first-insertion order.
  * A Python statement that can raise an uncaught exception is embedded as
    an `Option` (`none` = the exception escapes); a caught parsing
    exception inside the CSS parser is `Except.error` carrying the scan
    position at the raise.
  * The source's while-loops over a scan index are embedded as recursion
    on an iteration budget of (remaining input length + 1); since every
    iteration of the source loops strictly advances the index, the budget
    is never exhausted, which the *_congr lemmas certify by showing the
    result does not depend on any budget large enough.
  * tkinter font metrics are an abstract structure `Fonts` (the source's
    get_font key is (size, weight, style)); concrete instantiations are
    used for witnesses.
-/

-- ==========================================================================
-- Shared utilities
-- ==========================================================================

/- Python `int(float_value)` truncates toward zero. -/
def pyTrunc (q : Rat) : Int :=
  if q < 0 then -((-q).floor) else q.floor

/- Python dict assignment d[k] = v: overwrite in place if present, else
   append, preserving insertion order. -/
def dictInsert {α : Type} (d : List (String × α)) (k : String) (v : α) :
    List (String × α) :=
  if d.any (fun p => p.1 == k) then
    d.map (fun p => if p.1 == k then (k, v) else p)
  else
    d ++ [(k, v)]

/- Python dict lookup d[k] / d.get(k). -/
def dictGet {α : Type} (d : List (String × α)) (k : String) : Option α :=
  (d.find? (fun p => p.1 == k)).map (fun p => p.2)

/- Python str.split() with no argument: split on whitespace runs,
   dropping empty pieces (acc holds the current word reversed). -/
def splitWsAux : List Char → List Char → List String
  | [], acc => if acc.isEmpty then [] else [String.mk acc.reverse]
  | c :: rest, acc =>
      if c.isWhitespace then
        if acc.isEmpty then splitWsAux rest []
        else String.mk acc.reverse :: splitWsAux rest []
      else splitWsAux rest (c :: acc)

def pySplit (s : String) : List String :=
  splitWsAux s.toList []

/- Python str.casefold() / str.lower() for the ASCII inputs used here. -/
def lowerStr (s : String) : String :=
  String.mk (s.toList.map Char.toLower)

/- Python str.strip(). -/
def pyStrip (s : String) : String :=
  String.mk (((s.toList.dropWhile Char.isWhitespace).reverse.dropWhile
    Char.isWhitespace).reverse)

/- Python str.startswith with a one-character prefix. -/
def strHead (s : String) (c : Char) : Bool :=
  s.toList.head? == some c

/- Python max() over a nonempty list (0 on [], a case the source never
   evaluates because it guards with nonemptiness). -/
def pyMax (l : List Int) : Int :=
  match l with
  | [] => 0
  | h :: t => t.foldl max h

/- Python sorted(): a stable ascending sort (insertion sort: an element is
   placed before the first existing element it compares ≤ to, so elements
   with equal keys keep their original relative order). -/
def stableInsert {α : Type} (le : α → α → Bool) (x : α) : List α → List α
  | [] => [x]
  | y :: ys => if le x y then x :: y :: ys else y :: stableInsert le x ys

def pySorted {α : Type} (le : α → α → Bool) : List α → List α
  | [] => []
  | x :: xs => stableInsert le x (pySorted le xs)

-- ==========================================================================
-- Geometry primitives (drawing.py / utils.py)
-- ==========================================================================

/- drawing.py Rect: a rectangle with left, top, right, bottom coordinates. -/
structure Rect where
  left : Int
  top : Int
  right : Int
  bottom : Int
deriving DecidableEq, Repr

/- drawing.py Rect.contains_point:
   x >= self.left and x < self.right and y >= self.top and y < self.bottom -/
def Rect.contains_point (r : Rect) (x y : Int) : Bool :=
  x ≥ r.left && x < r.right && y ≥ r.top && y < r.bottom

-- ==========================================================================
-- Constants (constants.py)
-- ==========================================================================

def WIDTH : Int := 1280
def HSTEP : Int := 13
def VSTEP : Int := 18

def BLOCK_ELEMENTS : List String :=
  ["html", "body", "article", "section", "nav", "aside",
   "h1", "h2", "h3", "h4", "h5", "h6", "hgroup", "header",
   "footer", "address", "p", "hr", "pre", "blockquote",
   "ol", "ul", "menu", "li", "dl", "dt", "dd", "figure",
   "figcaption", "main", "div", "table", "form", "fieldset",
   "legend", "details", "summary"]

def SELF_CLOSING_TAGS : List String :=
  ["area", "base", "br", "col", "embed", "hr", "img", "input",
   "link", "meta", "param", "source", "track", "wbr"]

def ENTITIES : List (String × String) :=
  [("&lt;", "<"), ("&gt;", ">"), ("&amp;", "&"),
   ("&quot;", String.singleton (Char.ofNat 34)),
   ("&apos;", String.singleton (Char.ofNat 39)),
   ("&nbsp;", " "), ("&copy;", "©"), ("&ndash;", "-")]

/- HTMLParser.HEAD_TAGS. -/
def HEAD_TAGS : List String :=
  ["base", "basefont", "bgsound", "noscript",
   "link", "meta", "title", "style", "script"]

-- ==========================================================================
-- HTML node tree and parser (requests.py)
-- ==========================================================================

/- requests.py Text / Element nodes, without the mutable parent
   back-reference (ancestry is supplied explicitly where needed). -/
inductive HNode where
  | htext (text : String)
  | helem (tag : String) (attributes : List (String × String)) (children : List HNode)
deriving Repr

/- One frame of HTMLParser.unfinished: an open Element whose children so
   far have been accumulated.  The stack is kept head-first (head = the
   innermost open element, i.e. Python unfinished[-1]). -/
structure OpenElem where
  tag : String
  attributes : List (String × String)
  children : List HNode
deriving Repr

def squote : Char := Char.ofNat 39
def dquote : Char := Char.ofNat 34

/- Python s.split(c, 1): split at the first occurrence only. -/
def splitFirstChar (c : Char) : List Char → (List Char × List Char)
  | [] => ([], [])
  | x :: xs =>
      if x = c then ([], xs)
      else
        let r := splitFirstChar c xs
        (x :: r.1, r.2)

/- HTMLParser.get_attributes.  `none` models the IndexError raised by
   parts[0] when text has no non-whitespace parts. -/
def get_attributes (text : String) : Option (String × List (String × String)) :=
  match pySplit text with
  | [] => none
  | p0 :: rest =>
      let tag := lowerStr p0
      let attributes := rest.foldl (fun attrs attrpair =>
        if attrpair.toList.contains '=' then
          let kv := splitFirstChar '=' attrpair.toList
          let key := String.mk kv.1
          let value :=
            if kv.2.length > 2 ∧ (kv.2.head? = some squote ∨ kv.2.head? = some dquote)
            then String.mk (kv.2.drop 1).dropLast
            else String.mk kv.2
          dictInsert attrs (lowerStr key) value
        else
          dictInsert attrs (lowerStr attrpair) "") []
      some (tag, attributes)

/- [node.tag for node in self.unfinished] (bottom-first, as in Python). -/
def openTags (st : List OpenElem) : List String :=
  (st.map (fun f => f.tag)).reverse

def pushOpen (st : List OpenElem) (t : String) : List OpenElem :=
  ⟨t, [], []⟩ :: st

/- Pop the innermost open element and append it (as an Element node) to the
   children of the next one.  Callers guarantee at least two frames. -/
def closeTop (st : List OpenElem) : List OpenElem :=
  match st with
  | f :: p :: rest =>
      { p with children := p.children ++ [HNode.helem f.tag f.attributes f.children] } :: rest
  | other => other

def tagIn (tag : Option String) (l : List String) : Bool :=
  match tag with
  | some t => l.contains t
  | none => false

theorem openTags_push (st : List OpenElem) (t : String) :
    openTags (pushOpen st t) = openTags st ++ [t] := by
  simp [openTags, pushOpen]

theorem stack_shape_two (st : List OpenElem) (t0 t1 : String)
    (h : openTags st = [t0, t1]) :
    ∃ a b, st = [a, b] ∧ a.tag = t1 ∧ b.tag = t0 := by
  have hm : st.map (fun f => f.tag) = [t1, t0] := by
    have h2 := congrArg List.reverse h
    simpa [openTags] using h2
  cases st with
  | nil => simp at hm
  | cons a t =>
    cases t with
    | nil => simp at hm
    | cons b t2 =>
      cases t2 with
      | nil =>
        refine ⟨a, b, rfl, ?_, ?_⟩ <;> simp_all
      | cons c t3 => simp at hm

/- One iteration of the HTMLParser.implicit_tags while-loop; `none` is the
   final `break`.  The nested self.add_tag calls for "html", "head",
   "body" and "/head" are inlined: on the stack shapes from which the loop
   issues them, add_tag's own implicit_tags call hits the break
   immediately, and none of those tags is self-closing, so the calls
   reduce to a push (or, for "/head", a pop-and-append). -/
def implicitStep (tag : Option String) (st : List OpenElem) :
    Option (List OpenElem) :=
  if openTags st = [] ∧ tag ≠ some "html" then
    some (pushOpen st "html")
  else if openTags st = ["html"] ∧ ¬ tagIn tag ["head", "body", "/html"] then
    if (match tag with | some t => HEAD_TAGS.contains t | none => false) then
      some (pushOpen st "head")
    else
      some (pushOpen st "body")
  else if openTags st = ["html", "head"] ∧ ¬ tagIn tag ("/head" :: HEAD_TAGS) then
    some (closeTop st)
  else
    none

/- HTMLParser.implicit_tags.  The while-loop fires at most twice before
   breaking (implicitTags_fixpoint below), so three unrolled iterations
   are the loop's exact semantics. -/
def implicitTags (tag : Option String) (st : List OpenElem) : List OpenElem :=
  match implicitStep tag st with
  | none => st
  | some st1 =>
      match implicitStep tag st1 with
      | none => st1
      | some st2 =>
          match implicitStep tag st2 with
          | none => st2
          | some st3 => st3

theorem implicitStep_none_notrigger (tag : Option String) (st : List OpenElem)
    (h1 : ¬ (openTags st = [] ∧ tag ≠ some "html"))
    (h2 : ¬ (openTags st = ["html"] ∧ ¬ tagIn tag ["head", "body", "/html"] = true))
    (h3 : ¬ (openTags st = ["html", "head"] ∧ ¬ tagIn tag ("/head" :: HEAD_TAGS) = true)) :
    implicitStep tag st = none := by
  unfold implicitStep
  rw [if_neg h1, if_neg h2, if_neg h3]

theorem implicitStep_none_body (tag : Option String) (st : List OpenElem)
    (h : openTags st = ["html", "body"]) : implicitStep tag st = none := by
  unfold implicitStep
  rw [h]
  split_ifs <;> simp_all

theorem implicitStep_none_headin (tag : Option String) (st : List OpenElem)
    (h : openTags st = ["html", "head"])
    (ht : tagIn tag ("/head" :: HEAD_TAGS) = true) : implicitStep tag st = none := by
  unfold implicitStep
  rw [h]
  split_ifs <;> simp_all

theorem implicitStep_some_of_html (tag : Option String) (st st' : List OpenElem)
    (h : openTags st = ["html"]) (hs : implicitStep tag st = some st') :
    (openTags st' = ["html", "head"] ∧ tagIn tag ("/head" :: HEAD_TAGS) = true) ∨
    openTags st' = ["html", "body"] := by
  have hA : ¬ (openTags st = [] ∧ tag ≠ some "html") := by
    rw [h]
    simp
  have hD : ¬ (openTags st = ["html", "head"] ∧ ¬ tagIn tag ("/head" :: HEAD_TAGS) = true) := by
    rw [h]
    simp
  unfold implicitStep at hs
  rw [if_neg hA] at hs
  by_cases hB : openTags st = ["html"] ∧ ¬ tagIn tag ["head", "body", "/html"] = true
  · rw [if_pos hB] at hs
    cases tag with
    | none =>
      dsimp only at hs
      rw [if_neg (by simp)] at hs
      cases hs
      right
      rw [openTags_push, h]
      rfl
    | some t =>
      dsimp only at hs
      by_cases hC : HEAD_TAGS.contains t = true
      · rw [if_pos hC] at hs
        cases hs
        left
        refine ⟨by rw [openTags_push, h]; rfl, ?_⟩
        simp only [tagIn, List.contains_cons, hC, Bool.or_true]
      · rw [if_neg hC] at hs
        cases hs
        right
        rw [openTags_push, h]
        rfl
  · rw [if_neg hB, if_neg hD] at hs
    cases hs

theorem implicitStep_some_shape (tag : Option String) (st st' : List OpenElem)
    (hs : implicitStep tag st = some st') :
    openTags st' = ["html"] ∨
    (openTags st' = ["html", "head"] ∧ tagIn tag ("/head" :: HEAD_TAGS) = true) ∨
    openTags st' = ["html", "body"] := by
  unfold implicitStep at hs
  by_cases hA : openTags st = [] ∧ tag ≠ some "html"
  · rw [if_pos hA] at hs
    cases hs
    left
    rw [openTags_push, hA.1]
    rfl
  rw [if_neg hA] at hs
  by_cases hB : openTags st = ["html"] ∧ ¬ tagIn tag ["head", "body", "/html"] = true
  · rw [if_pos hB] at hs
    cases tag with
    | none =>
      dsimp only at hs
      rw [if_neg (by simp)] at hs
      cases hs
      right; right
      rw [openTags_push, hB.1]
      rfl
    | some t =>
      dsimp only at hs
      by_cases hC : HEAD_TAGS.contains t = true
      · rw [if_pos hC] at hs
        cases hs
        right; left
        refine ⟨?_, ?_⟩
        · rw [openTags_push, hB.1]
          rfl
        · simp only [tagIn, List.contains_cons, hC, Bool.or_true]
      · rw [if_neg hC] at hs
        cases hs
        right; right
        rw [openTags_push, hB.1]
        rfl
  rw [if_neg hB] at hs
  by_cases hD : openTags st = ["html", "head"] ∧ ¬ tagIn tag ("/head" :: HEAD_TAGS) = true
  · rw [if_pos hD] at hs
    cases hs
    obtain ⟨a, b, hst, hat, hbt⟩ := stack_shape_two st "html" "head" hD.1
    left
    rw [hst]
    simp [closeTop, openTags, hbt]
  · rw [if_neg hD] at hs
    cases hs

/- The implicit_tags loop always breaks within the three unrolled
   iterations: one more iteration from the result would not fire. -/
theorem implicitTags_fixpoint (tag : Option String) (st : List OpenElem) :
    implicitStep tag (implicitTags tag st) = none := by
  cases hs1 : implicitStep tag st with
  | none =>
    unfold implicitTags
    rw [hs1]
    exact hs1
  | some st1 =>
    cases hs2 : implicitStep tag st1 with
    | none =>
      unfold implicitTags
      rw [hs1]
      dsimp only
      rw [hs2]
      exact hs2
    | some st2 =>
      have hsh1 := implicitStep_some_shape tag st st1 hs1
      have hnone : implicitStep tag st2 = none := by
        rcases hsh1 with h | h | h
        · rcases implicitStep_some_of_html tag st1 st2 h hs2 with ⟨hh, ht⟩ | hb
          · exact implicitStep_none_headin tag st2 hh ht
          · exact implicitStep_none_body tag st2 hb
        · rw [implicitStep_none_headin tag st1 h.1 h.2] at hs2
          cases hs2
        · rw [implicitStep_none_body tag st1 h] at hs2
          cases hs2
      unfold implicitTags
      rw [hs1]
      dsimp only
      rw [hs2]
      dsimp only
      rw [hnone]
      exact hnone

/- HTMLParser.add_text.  `none` models unfinished[-1] raising on an empty
   stack (unreachable in practice, since implicit_tags just ran). -/
def addText (text : String) (st : List OpenElem) : Option (List OpenElem) :=
  if text.toList ≠ [] ∧ text.toList.all Char.isWhitespace then
    some st
  else
    match implicitTags none st with
    | [] => none
    | top :: rest =>
        some ({ top with children := top.children ++ [HNode.htext text] } :: rest)

/- HTMLParser.add_tag. -/
def addTag (rawTag : String) (st : List OpenElem) : Option (List OpenElem) := do
  let (tag, attributes) ← get_attributes rawTag
  if strHead tag '!' then
    return st
  let st := implicitTags (some tag) st
  if strHead tag '/' then
    match st with
    | [] => none              -- pop from an empty stack would raise
    | [f] => return [f]       -- `if len(self.unfinished) == 1: return`
    | f :: p :: rest =>
        return ({ p with
          children := p.children ++ [HNode.helem f.tag f.attributes f.children] } :: rest)
  else if SELF_CLOSING_TAGS.contains tag then
    match st with
    | [] => none
    | top :: rest =>
        return ({ top with
          children := top.children ++ [HNode.helem tag attributes []] } :: rest)
  else
    return (⟨tag, attributes, []⟩ :: st)

/- HTMLParser.finish's closing loop followed by the final pop: fold the
   innermost open element into its parent until one remains. -/
def closeAllGo (top : OpenElem) : List OpenElem → HNode
  | [] => HNode.helem top.tag top.attributes top.children
  | p :: rest =>
      closeAllGo
        { p with children := p.children ++ [HNode.helem top.tag top.attributes top.children] }
        rest

def closeAll : List OpenElem → Option HNode
  | [] => none
  | f :: rest => some (closeAllGo f rest)

/- HTMLParser.finish. -/
def finishUp (st : List OpenElem) : Option HNode :=
  closeAll (if st.isEmpty then implicitTags none st else st)

/- One entity-length attempt in the '&' branch of HTMLParser.parse. -/
def entityTryLen (l : List Char) (n : Nat) : Option (String × Nat) :=
  if n ≤ l.length then
    match dictGet ENTITIES (String.mk (l.take n)) with
    | some v => some (v, n)
    | none => none
  else none

/- The entity loop: lengths 4..7 tried in order. -/
def entityAt (l : List Char) : Option (String × Nat) :=
  (entityTryLen l 4).orElse (fun _ => (entityTryLen l 5).orElse (fun _ =>
    (entityTryLen l 6).orElse (fun _ => entityTryLen l 7)))

theorem entityTryLen_bounds (l : List Char) (n : Nat) (v : String) (m : Nat)
    (h : entityTryLen l n = some (v, m)) : m = n ∧ n ≤ l.length := by
  unfold entityTryLen at h
  split_ifs at h with hle
  · cases hd : dictGet ENTITIES (String.mk (l.take n)) with
    | none => rw [hd] at h; cases h
    | some w => rw [hd] at h; cases h; exact ⟨rfl, hle⟩

theorem orElse_eq_some {α : Type} (a b : Option α) (x : α)
    (h : (a.orElse fun _ => b) = some x) : a = some x ∨ b = some x := by
  cases a <;> simp_all [Option.orElse]

theorem entityAt_bounds (l : List Char) (v : String) (m : Nat)
    (h : entityAt l = some (v, m)) : 4 ≤ m ∧ m ≤ l.length := by
  unfold entityAt at h
  rcases orElse_eq_some _ _ _ h with h1 | h1
  · obtain ⟨he, hl⟩ := entityTryLen_bounds l 4 v m h1
    omega
  rcases orElse_eq_some _ _ _ h1 with h2 | h2
  · obtain ⟨he, hl⟩ := entityTryLen_bounds l 5 v m h2
    omega
  rcases orElse_eq_some _ _ _ h2 with h3 | h3
  · obtain ⟨he, hl⟩ := entityTryLen_bounds l 6 v m h3
    omega
  obtain ⟨he, hl⟩ := entityTryLen_bounds l 7 v m h3
  omega

/- The main character loop of HTMLParser.parse, on the remaining input,
   with an iteration budget (one unit per loop iteration; every iteration
   consumes at least one character, so `length + 1` units always suffice —
   parseLoopF_congr).  After the input is exhausted, trailing text is
   flushed (the source's final `if not in_tag and buffer: add_text`). -/
def parseLoopF : Nat → List Char → String → Bool → List OpenElem →
    Option (List OpenElem)
  | _, [], buffer, inTag, st =>
      if ¬ inTag ∧ buffer ≠ "" then addText buffer st else some st
  | 0, _ :: _, _, _, _ => none
  | fuel + 1, c :: rest, buffer, inTag, st =>
      if c = '<' then
        match (if buffer ≠ "" then addText buffer st else some st) with
        | none => none
        | some st1 => parseLoopF fuel rest "" true st1
      else if c = '>' ∧ inTag then
        let tagContent := pyStrip buffer
        match addTag tagContent st with
        | none => none
        | some st1 =>
            let cleanTag0 := if tagContent ≠ "" then ((pySplit tagContent).headD "") else ""
            let cleanTag1 := if strHead cleanTag0 '/' then cleanTag0.drop 1 else cleanTag0
            let cleanTag := lowerStr cleanTag1
            -- both add_text("\n") calls are dropped by add_text's whitespace check
            match (if cleanTag = "br" then addText "\n" st1
                   else if strHead tagContent '/' then addText "\n" st1
                   else some st1) with
            | none => none
            | some st2 => parseLoopF fuel rest "" false st2
      else if ¬ inTag ∧ c = '&' then
        match entityAt (c :: rest) with
        | some (v, len) => parseLoopF fuel ((c :: rest).drop len) (buffer ++ v) inTag st
        | none => parseLoopF fuel rest (buffer ++ "&") inTag st
      else if ¬ inTag then
        if c.isWhitespace then
          let buffer1 :=
            if buffer ≠ "" ∧ ¬ (buffer.toList.getLast? == some ' ') then buffer ++ " "
            else buffer
          parseLoopF fuel rest buffer1 inTag st
        else
          parseLoopF fuel rest (buffer.push c) inTag st
      else
        parseLoopF fuel rest (buffer.push c) inTag st

/- The iteration budget is irrelevant once it exceeds the remaining input
   length: the loop reaches its natural exit within that many iterations. -/
theorem parseLoopF_congr :
    ∀ (f1 f2 : Nat) (l : List Char) (buffer : String) (inTag : Bool)
      (st : List OpenElem), l.length < f1 → l.length < f2 →
      parseLoopF f1 l buffer inTag st = parseLoopF f2 l buffer inTag st := by
  intro f1
  induction f1 with
  | zero =>
    intro f2 l buffer inTag st h1 h2
    omega
  | succ f1 ih =>
    intro f2 l buffer inTag st h1 h2
    cases f2 with
    | zero => omega
    | succ f2 =>
      cases l with
      | nil => rfl
      | cons c rest =>
        simp only [List.length_cons] at h1 h2
        simp only [parseLoopF]
        by_cases hc : c = '<'
        · rw [if_pos hc, if_pos hc]
          cases hflush : (if buffer ≠ "" then addText buffer st else some st) with
          | none => rfl
          | some st1 => exact ih f2 rest "" true st1 (by omega) (by omega)
        · rw [if_neg hc, if_neg hc]
          by_cases hgt : c = '>' ∧ inTag = true
          · rw [if_pos hgt, if_pos hgt]
            cases htag : addTag (pyStrip buffer) st with
            | none => rfl
            | some st1 =>
              dsimp only
              cases hnl : (if lowerStr (if strHead (if pyStrip buffer ≠ ""
                    then (pySplit (pyStrip buffer)).headD "" else "") '/'
                  then (if pyStrip buffer ≠ ""
                    then (pySplit (pyStrip buffer)).headD "" else "").drop 1
                  else (if pyStrip buffer ≠ ""
                    then (pySplit (pyStrip buffer)).headD "" else "")) = "br"
                then addText "\n" st1
                else if strHead (pyStrip buffer) '/' then addText "\n" st1
                else some st1) with
              | none => rfl
              | some st2 => exact ih f2 rest "" false st2 (by omega) (by omega)
          · rw [if_neg hgt, if_neg hgt]
            by_cases hamp : (¬ inTag = true) ∧ c = '&'
            · rw [if_pos hamp, if_pos hamp]
              cases hent : entityAt (c :: rest) with
              | some p =>
                obtain ⟨hlo, hhi⟩ := entityAt_bounds _ _ _ hent
                have hdl : ((c :: rest).drop p.2).length ≤ rest.length - 3 := by
                  simp only [List.length_drop, List.length_cons]
                  omega
                exact ih f2 _ _ inTag st (by omega) (by omega)
              | none => exact ih f2 rest _ inTag st (by omega) (by omega)
            · rw [if_neg hamp, if_neg hamp]
              by_cases hnt : ¬ inTag = true
              · rw [if_pos hnt, if_pos hnt]
                by_cases hws : c.isWhitespace = true
                · rw [if_pos hws, if_pos hws]
                  exact ih f2 rest _ inTag st (by omega) (by omega)
                · rw [if_neg hws, if_neg hws]
                  exact ih f2 rest _ inTag st (by omega) (by omega)
              · rw [if_neg hnt, if_neg hnt]
                exact ih f2 rest _ inTag st (by omega) (by omega)

/- HTMLParser.parse: full pipeline from the raw body to the root node. -/
def htmlParse (body : String) : Option HNode := do
  let st ← parseLoopF (body.toList.length + 1) body.toList "" false []
  finishUp st

-- ==========================================================================
-- CSS selectors and stylesheet parsing (cssparser.py)
-- ==========================================================================

/- TagSelector / DescendantSelector. -/
inductive Selector where
  | tag (t : String)
  | desc (ancestor : Selector) (descendant : Selector)
deriving Repr, DecidableEq

/- TagSelector.priority = 1; DescendantSelector.priority = sum of parts. -/
def Selector.priority : Selector → Int
  | .tag _ => 1
  | .desc a d => a.priority + d.priority

/- cssparser.py cascade_priority. -/
def cascade_priority {α : Type} (rule : Selector × α) : Int :=
  rule.1.priority

/- The CSS scanner state is the remaining input (self.s from index self.i on).
   A raised parsing exception is `Except.error` carrying the position (the
   remaining input) at which the exception left self.i. -/

/- CSSParser.whitespace. -/
def cssWhitespace (s : List Char) : List Char :=
  s.dropWhile Char.isWhitespace

/- Word characters: isalnum() or one of "#-.%". -/
def cssWordChar (c : Char) : Bool :=
  c.isAlphanum || c = '#' || c = '-' || c = '.' || c = '%'

/- CSSParser.word: raises (with self.i unmoved) when no character qualifies. -/
def cssWord (s : List Char) : Except (List Char) (String × List Char) :=
  if (s.takeWhile cssWordChar).isEmpty then .error s
  else .ok (String.mk (s.takeWhile cssWordChar), s.drop (s.takeWhile cssWordChar).length)

/- CSSParser.literal. -/
def cssLiteral (c : Char) (s : List Char) : Except (List Char) (List Char) :=
  match s with
  | [] => .error []
  | x :: rest => if x = c then .ok rest else .error (x :: rest)

/- CSSParser.pair. -/
def cssPair (s : List Char) : Except (List Char) ((String × String) × List Char) :=
  match cssWord s with
  | .error e => .error e
  | .ok (prop, s1) =>
      let s2 := cssWhitespace s1
      match cssLiteral ':' s2 with
      | .error e => .error e
      | .ok s3 =>
          let s4 := cssWhitespace s3
          match cssWord s4 with
          | .error e => .error e
          | .ok (val, s5) => .ok ((lowerStr prop, val), s5)

/- CSSParser.ignore_until: stops AT the first requested character (it is not
   consumed), or at the end of input returning none. -/
def cssIgnoreUntil (chars : List Char) : List Char → Option Char × List Char
  | [] => (none, [])
  | c :: rest =>
      if chars.contains c then (some c, c :: rest)
      else cssIgnoreUntil chars rest

theorem dropWhile_length_aux (p : Char → Bool) :
    ∀ s : List Char, (s.dropWhile p).length ≤ s.length := by
  intro s
  induction s with
  | nil => simp
  | cons c rest ih =>
    by_cases h : p c <;> simp [List.dropWhile, h] <;> omega

theorem takeWhile_length_aux (p : Char → Bool) :
    ∀ s : List Char, (s.takeWhile p).length ≤ s.length := by
  intro s
  induction s with
  | nil => simp
  | cons c rest ih =>
    by_cases h : p c <;> simp [List.takeWhile, h] <;> omega

theorem cssWhitespace_length_le (s : List Char) :
    (cssWhitespace s).length ≤ s.length :=
  dropWhile_length_aux _ s

theorem cssWord_ok_length (s : List Char) (w : String) (s1 : List Char)
    (h : cssWord s = .ok (w, s1)) : s1.length < s.length := by
  unfold cssWord at h
  split_ifs at h with he
  have htw := takeWhile_length_aux cssWordChar s
  have hne : (s.takeWhile cssWordChar).length ≠ 0 := by
    simpa [List.isEmpty_iff, List.length_eq_zero] using he
  cases h
  simp only [List.length_drop]
  omega

theorem cssWord_error_eq (s serr : List Char)
    (h : cssWord s = .error serr) : serr = s := by
  unfold cssWord at h
  split_ifs at h
  cases h
  rfl

theorem cssLiteral_ok_length (c : Char) (s s1 : List Char)
    (h : cssLiteral c s = .ok s1) : s1.length < s.length := by
  cases s with
  | nil => simp [cssLiteral] at h
  | cons x rest =>
    simp only [cssLiteral] at h
    split_ifs at h
    cases h
    simp

theorem cssLiteral_error_eq (c : Char) (s serr : List Char)
    (h : cssLiteral c s = .error serr) : serr = s := by
  cases s with
  | nil => simp only [cssLiteral, Except.error.injEq] at h; rw [h]
  | cons x rest =>
    simp only [cssLiteral] at h
    split_ifs at h
    cases h
    rfl

theorem cssPair_ok_length (s : List Char) (p : String × String) (s1 : List Char)
    (h : cssPair s = .ok (p, s1)) : s1.length < s.length := by
  unfold cssPair at h
  cases h1 : cssWord s with
  | error e => rw [h1] at h; cases h
  | ok r1 =>
    rw [h1] at h
    obtain ⟨prop, sa⟩ := r1
    cases h2 : cssLiteral ':' (cssWhitespace sa) with
    | error e => simp only [h2] at h; cases h
    | ok sb =>
      simp only [h2] at h
      cases h3 : cssWord (cssWhitespace sb) with
      | error e => simp only [h3] at h; cases h
      | ok r3 =>
        obtain ⟨val, sc⟩ := r3
        simp only [h3, Except.ok.injEq, Prod.mk.injEq] at h
        obtain ⟨h5, h6⟩ := h
        subst h6
        have e1 := cssWord_ok_length _ _ _ h1
        have e2 := cssWhitespace_length_le sa
        have e3 := cssLiteral_ok_length _ _ _ h2
        have e4 := cssWhitespace_length_le sb
        have e5 := cssWord_ok_length _ _ _ h3
        omega

theorem cssPair_error_length (s serr : List Char)
    (h : cssPair s = .error serr) : serr.length ≤ s.length := by
  unfold cssPair at h
  cases h1 : cssWord s with
  | error e =>
    rw [h1] at h
    cases h
    rw [cssWord_error_eq _ _ h1]
  | ok r1 =>
    rw [h1] at h
    obtain ⟨prop, sa⟩ := r1
    have e1 := cssWord_ok_length _ _ _ h1
    have e2 := cssWhitespace_length_le sa
    cases h2 : cssLiteral ':' (cssWhitespace sa) with
    | error e =>
      simp only [h2] at h
      cases h
      have := cssLiteral_error_eq _ _ _ h2
      subst this
      omega
    | ok sb =>
      simp only [h2] at h
      have e3 := cssLiteral_ok_length _ _ _ h2
      have e4 := cssWhitespace_length_le sb
      cases h3 : cssWord (cssWhitespace sb) with
      | error e =>
        simp only [h3] at h
        cases h
        have := cssWord_error_eq _ _ h3
        subst this
        omega
      | ok r3 =>
        obtain ⟨val, sc⟩ := r3
        simp only [h3] at h
        cases h

theorem cssIgnoreUntil_length_le (chars : List Char) (s : List Char) :
    (cssIgnoreUntil chars s).2.length ≤ s.length := by
  induction s with
  | nil => simp [cssIgnoreUntil]
  | cons c rest ih =>
    unfold cssIgnoreUntil
    split_ifs <;> simp <;> omega

theorem cssIgnoreUntil_found (chars : List Char) (s s1 : List Char) (ch : Char)
    (h : cssIgnoreUntil chars s = (some ch, s1)) :
    s1.length ≤ s.length ∧ s1 ≠ [] := by
  induction s with
  | nil => simp [cssIgnoreUntil] at h
  | cons c rest ih =>
    unfold cssIgnoreUntil at h
    split_ifs at h with hc
    · cases h
      exact ⟨le_refl _, by simp⟩
    · obtain ⟨hl, hn⟩ := ih h
      exact ⟨by simp; omega, hn⟩

/- The `while ... != "{"` loop of CSSParser.selector, with an iteration
   budget (each iteration consumes at least one character). -/
def cssSelLoopF : Nat → Selector → List Char →
    Except (List Char) (Selector × List Char)
  | _, out, [] => .ok (out, [])
  | 0, _, _ :: _ => .error []
  | fuel + 1, out, c :: rest =>
      if c = '{' then .ok (out, c :: rest)
      else
        match cssWord (c :: rest) with
        | .error e => .error e
        | .ok (w, s1) =>
            cssSelLoopF fuel (.desc out (.tag (lowerStr w))) (cssWhitespace s1)

theorem cssSelLoopF_ok_length :
    ∀ (fuel : Nat) (out : Selector) (s : List Char) (sel : Selector)
      (s1 : List Char), cssSelLoopF fuel out s = .ok (sel, s1) →
      s1.length ≤ s.length := by
  intro fuel
  induction fuel with
  | zero =>
    intro out s sel s1 h
    cases s with
    | nil => simp only [cssSelLoopF, Except.ok.injEq, Prod.mk.injEq] at h; simp [h.2.symm]
    | cons c rest => simp [cssSelLoopF] at h
  | succ fuel ih =>
    intro out s sel s1 h
    cases s with
    | nil => simp only [cssSelLoopF, Except.ok.injEq, Prod.mk.injEq] at h; simp [h.2.symm]
    | cons c rest =>
      simp only [cssSelLoopF] at h
      split_ifs at h with hc
      · simp only [Except.ok.injEq, Prod.mk.injEq] at h
        simp [h.2.symm]
      · cases hw : cssWord (c :: rest) with
        | error e => rw [hw] at h; cases h
        | ok r =>
          rw [hw] at h
          obtain ⟨w, sa⟩ := r
          have h1 := cssWord_ok_length _ _ _ hw
          have h2 := cssWhitespace_length_le sa
          have h3 := ih _ _ _ _ h
          simp only [List.length_cons] at h1 ⊢
          omega

theorem cssSelLoopF_error_length :
    ∀ (fuel : Nat) (out : Selector) (s serr : List Char),
      cssSelLoopF fuel out s = .error serr → serr.length ≤ s.length := by
  intro fuel
  induction fuel with
  | zero =>
    intro out s serr h
    cases s with
    | nil => simp [cssSelLoopF] at h
    | cons c rest =>
      simp only [cssSelLoopF, Except.error.injEq] at h
      simp [h.symm]
  | succ fuel ih =>
    intro out s serr h
    cases s with
    | nil => simp [cssSelLoopF] at h
    | cons c rest =>
      simp only [cssSelLoopF] at h
      split_ifs at h with hc
      cases hw : cssWord (c :: rest) with
      | error e =>
        rw [hw] at h
        cases h
        have := cssWord_error_eq _ _ hw
        subst this
        exact le_refl _
      | ok r =>
        rw [hw] at h
        obtain ⟨w, sa⟩ := r
        have h1 := cssWord_ok_length _ _ _ hw
        have h2 := cssWhitespace_length_le sa
        have h3 := ih _ _ _ h
        simp only [List.length_cons] at h1 ⊢
        omega

theorem cssSelLoopF_congr :
    ∀ (f1 f2 : Nat) (out : Selector) (s : List Char), s.length < f1 →
      s.length < f2 → cssSelLoopF f1 out s = cssSelLoopF f2 out s := by
  intro f1
  induction f1 with
  | zero =>
    intro f2 out s h1 h2
    omega
  | succ f1 ih =>
    intro f2 out s h1 h2
    cases f2 with
    | zero => omega
    | succ f2 =>
      cases s with
      | nil => rfl
      | cons c rest =>
        simp only [List.length_cons] at h1 h2
        simp only [cssSelLoopF]
        split_ifs with hc
        · rfl
        · cases hw : cssWord (c :: rest) with
          | error e => rfl
          | ok r =>
            obtain ⟨w, sa⟩ := r
            have hl := cssWord_ok_length _ _ _ hw
            have h2w := cssWhitespace_length_le sa
            simp only [List.length_cons] at hl
            exact ih f2 _ _ (by omega) (by omega)

/- CSSParser.selector. -/
def cssSelector (s : List Char) : Except (List Char) (Selector × List Char) :=
  match cssWord s with
  | .error e => .error e
  | .ok (w, s1) =>
      cssSelLoopF ((cssWhitespace s1).length + 1) (.tag (lowerStr w))
        (cssWhitespace s1)

theorem cssSelector_ok_length (s : List Char) (sel : Selector) (s1 : List Char)
    (h : cssSelector s = .ok (sel, s1)) : s1.length < s.length := by
  unfold cssSelector at h
  cases hw : cssWord s with
  | error e => rw [hw] at h; cases h
  | ok r =>
      rw [hw] at h
      obtain ⟨w, sa⟩ := r
      have h1 := cssWord_ok_length _ _ _ hw
      have h2 := cssWhitespace_length_le sa
      have h3 := cssSelLoopF_ok_length _ _ _ _ _ h
      omega

theorem cssSelector_error_length (s serr : List Char)
    (h : cssSelector s = .error serr) : serr.length ≤ s.length := by
  unfold cssSelector at h
  cases hw : cssWord s with
  | error e =>
      rw [hw] at h
      cases h
      have := cssWord_error_eq _ _ hw
      subst this
      exact le_refl _
  | ok r =>
      rw [hw] at h
      obtain ⟨w, sa⟩ := r
      have h1 := cssWord_ok_length _ _ _ hw
      have h2 := cssWhitespace_length_le sa
      have h3 := cssSelLoopF_error_length _ _ _ _ h
      omega

/- CSSParser.body: the declaration loop with per-declaration recovery,
   with an iteration budget.  Note the source inserts the parsed pair into
   the dict BEFORE checking for the terminating ';', so a final
   declaration without a ';' is kept; `why == ";"` consumes the ';' and
   continues, anything else breaks. -/
def cssBodyF : Nat → List Char → List (String × String) →
    List (String × String) × List Char
  | _, [], pairs => (pairs, [])
  | 0, c :: rest, pairs => (pairs, c :: rest)
  | fuel + 1, c :: rest, pairs =>
      if c = '}' then (pairs, c :: rest)
      else
        match cssPair (c :: rest) with
        | .ok ((prop, val), s1) =>
            let pairs1 := dictInsert pairs prop val
            match cssLiteral ';' (cssWhitespace s1) with
            | .ok s3 => cssBodyF fuel (cssWhitespace s3) pairs1
            | .error serr =>
                let r := cssIgnoreUntil [';', '}'] serr
                if r.1 = some ';' then cssBodyF fuel (cssWhitespace (r.2.drop 1)) pairs1
                else (pairs1, r.2)
        | .error serr =>
            let r := cssIgnoreUntil [';', '}'] serr
            if r.1 = some ';' then cssBodyF fuel (cssWhitespace (r.2.drop 1)) pairs
            else (pairs, r.2)

theorem cssIgnoreUntil_fst_some (chars : List Char) (serr : List Char) (ch : Char)
    (h : (cssIgnoreUntil chars serr).1 = some ch) :
    (cssIgnoreUntil chars serr).2.length ≤ serr.length ∧
    (cssIgnoreUntil chars serr).2 ≠ [] := by
  apply cssIgnoreUntil_found chars serr _ ch
  rw [← h]

theorem cssBodyF_length_le :
    ∀ (fuel : Nat) (s : List Char) (pairs : List (String × String)),
      (cssBodyF fuel s pairs).2.length ≤ s.length := by
  intro fuel
  induction fuel with
  | zero =>
    intro s pairs
    cases s <;> simp [cssBodyF]
  | succ fuel ih =>
    intro s pairs
    cases s with
    | nil => simp [cssBodyF]
    | cons c rest =>
      by_cases hc : c = '}'
      · simp [cssBodyF, if_pos hc]
      · simp only [cssBodyF, if_neg hc]
        split
        · rename_i prop val s1 hp
          have h1 := cssPair_ok_length _ _ _ hp
          simp only [List.length_cons] at h1
          split
          · rename_i s3 hl
            have h2 := cssWhitespace_length_le s1
            have h3 := cssLiteral_ok_length _ _ _ hl
            have h4 := cssWhitespace_length_le s3
            have h5 := ih (cssWhitespace s3) (dictInsert pairs prop val)
            simp only [List.length_cons]
            omega
          · rename_i serr hl
            have h2 := cssWhitespace_length_le s1
            have he := cssLiteral_error_eq _ _ _ hl
            by_cases hr : (cssIgnoreUntil [';', '}'] serr).1 = some ';'
            · rw [if_pos hr]
              obtain ⟨h6, h7⟩ := cssIgnoreUntil_fst_some _ serr _ hr
              have h8 : ((cssIgnoreUntil [';', '}'] serr).2.drop 1).length + 1
                  = (cssIgnoreUntil [';', '}'] serr).2.length := by
                cases hy : (cssIgnoreUntil [';', '}'] serr).2 with
                | nil => exact absurd hy h7
                | cons a b => simp
              have h9 := cssWhitespace_length_le ((cssIgnoreUntil [';', '}'] serr).2.drop 1)
              have h10 := ih (cssWhitespace ((cssIgnoreUntil [';', '}'] serr).2.drop 1))
                (dictInsert pairs prop val)
              simp only [List.length_cons]
              subst he
              omega
            · rw [if_neg hr]
              have h6 := cssIgnoreUntil_length_le [';', '}'] serr
              simp only [List.length_cons]
              subst he
              omega
        · rename_i serr hp
          have h1 := cssPair_error_length _ _ hp
          simp only [List.length_cons] at h1
          by_cases hr : (cssIgnoreUntil [';', '}'] serr).1 = some ';'
          · rw [if_pos hr]
            obtain ⟨h6, h7⟩ := cssIgnoreUntil_fst_some _ serr _ hr
            have h8 : ((cssIgnoreUntil [';', '}'] serr).2.drop 1).length + 1
                = (cssIgnoreUntil [';', '}'] serr).2.length := by
              cases hy : (cssIgnoreUntil [';', '}'] serr).2 with
              | nil => exact absurd hy h7
              | cons a b => simp
            have h9 := cssWhitespace_length_le ((cssIgnoreUntil [';', '}'] serr).2.drop 1)
            have h10 := ih (cssWhitespace ((cssIgnoreUntil [';', '}'] serr).2.drop 1)) pairs
            simp only [List.length_cons]
            omega
          · rw [if_neg hr]
            have h6 := cssIgnoreUntil_length_le [';', '}'] serr
            simp only [List.length_cons]
            omega

theorem cssBodyF_congr :
    ∀ (f1 f2 : Nat) (s : List Char) (pairs : List (String × String)),
      s.length < f1 → s.length < f2 →
      cssBodyF f1 s pairs = cssBodyF f2 s pairs := by
  intro f1
  induction f1 with
  | zero =>
    intro f2 s pairs h1 h2
    omega
  | succ f1 ih =>
    intro f2 s pairs h1 h2
    cases f2 with
    | zero => omega
    | succ f2 =>
      cases s with
      | nil => rfl
      | cons c rest =>
        simp only [List.length_cons] at h1 h2
        simp only [cssBodyF]
        by_cases hc : c = '}'
        · rw [if_pos hc, if_pos hc]
        · rw [if_neg hc, if_neg hc]
          cases hp : cssPair (c :: rest) with
          | ok r =>
            obtain ⟨⟨prop, val⟩, s1⟩ := r
            have hl1 := cssPair_ok_length _ _ _ hp
            simp only [List.length_cons] at hl1
            dsimp only
            cases hl : cssLiteral ';' (cssWhitespace s1) with
            | ok s3 =>
              dsimp only
              have hl2 := cssWhitespace_length_le s1
              have hl3 := cssLiteral_ok_length _ _ _ hl
              have hl4 := cssWhitespace_length_le s3
              exact ih f2 _ _ (by omega) (by omega)
            | error serr =>
              dsimp only
              have hl2 := cssWhitespace_length_le s1
              have he := cssLiteral_error_eq _ _ _ hl
              by_cases hr : (cssIgnoreUntil [';', '}'] serr).1 = some ';'
              · rw [if_pos hr, if_pos hr]
                obtain ⟨h6, h7⟩ := cssIgnoreUntil_fst_some _ serr _ hr
                have h8 : ((cssIgnoreUntil [';', '}'] serr).2.drop 1).length + 1
                    = (cssIgnoreUntil [';', '}'] serr).2.length := by
                  cases hy : (cssIgnoreUntil [';', '}'] serr).2 with
                  | nil => exact absurd hy h7
                  | cons a b => simp
                have h9 := cssWhitespace_length_le ((cssIgnoreUntil [';', '}'] serr).2.drop 1)
                subst he
                exact ih f2 _ _ (by omega) (by omega)
              · rw [if_neg hr, if_neg hr]
          | error serr =>
            dsimp only
            by_cases hr : (cssIgnoreUntil [';', '}'] serr).1 = some ';'
            · rw [if_pos hr, if_pos hr]
              have hl1 := cssPair_error_length _ _ hp
              simp only [List.length_cons] at hl1
              obtain ⟨h6, h7⟩ := cssIgnoreUntil_fst_some _ serr _ hr
              have h8 : ((cssIgnoreUntil [';', '}'] serr).2.drop 1).length + 1
                  = (cssIgnoreUntil [';', '}'] serr).2.length := by
                cases hy : (cssIgnoreUntil [';', '}'] serr).2 with
                | nil => exact absurd hy h7
                | cons a b => simp
              have h9 := cssWhitespace_length_le ((cssIgnoreUntil [';', '}'] serr).2.drop 1)
              exact ih f2 _ _ (by omega) (by omega)
            · rw [if_neg hr, if_neg hr]

/- CSSParser.body with the always-sufficient iteration budget. -/
def cssBody (s : List Char) (pairs : List (String × String)) :
    List (String × String) × List Char :=
  cssBodyF (s.length + 1) s pairs

theorem cssBody_length_le (s : List Char) (pairs : List (String × String)) :
    (cssBody s pairs).2.length ≤ s.length :=
  cssBodyF_length_le _ s pairs

/- CSSParser.parse: the rule loop with per-rule recovery at the next '}',
   with an iteration budget. -/
def cssParseLoopF : Nat → List Char → List (Selector × List (String × String)) →
    List (Selector × List (String × String))
  | _, [], rules => rules
  | 0, _ :: _, rules => rules
  | fuel + 1, c :: rest, rules =>
      let s0 := cssWhitespace (c :: rest)
      match cssSelector s0 with
      | .ok (sel, s1) =>
          match cssLiteral '{' s1 with
          | .ok s2 =>
              let bres := cssBody (cssWhitespace s2) []
              match cssLiteral '}' bres.2 with
              | .ok s5 => cssParseLoopF fuel s5 (rules ++ [(sel, bres.1)])
              | .error serr =>
                  let r := cssIgnoreUntil ['}'] serr
                  if r.1 = some '}' then cssParseLoopF fuel (cssWhitespace (r.2.drop 1)) rules
                  else rules
          | .error serr =>
              let r := cssIgnoreUntil ['}'] serr
              if r.1 = some '}' then cssParseLoopF fuel (cssWhitespace (r.2.drop 1)) rules
              else rules
      | .error serr =>
          let r := cssIgnoreUntil ['}'] serr
          if r.1 = some '}' then cssParseLoopF fuel (cssWhitespace (r.2.drop 1)) rules
          else rules

theorem cssParseLoopF_congr :
    ∀ (f1 f2 : Nat) (s : List Char)
      (rules : List (Selector × List (String × String))),
      s.length < f1 → s.length < f2 →
      cssParseLoopF f1 s rules = cssParseLoopF f2 s rules := by
  intro f1
  induction f1 with
  | zero =>
    intro f2 s rules h1 h2
    omega
  | succ f1 ih =>
    intro f2 s rules h1 h2
    cases f2 with
    | zero => omega
    | succ f2 =>
      cases s with
      | nil => rfl
      | cons c rest =>
        simp only [List.length_cons] at h1 h2
        simp only [cssParseLoopF]
        have hw0 := cssWhitespace_length_le (c :: rest)
        simp only [List.length_cons] at hw0
        cases hsel : cssSelector (cssWhitespace (c :: rest)) with
        | ok rsel =>
          obtain ⟨sel, s1⟩ := rsel
          have e1 := cssSelector_ok_length _ _ _ hsel
          dsimp only
          cases hbr : cssLiteral '{' s1 with
          | ok s2 =>
            have e2 := cssLiteral_ok_length _ _ _ hbr
            have e3 := cssWhitespace_length_le s2
            have e4 := cssBody_length_le (cssWhitespace s2) []
            dsimp only
            cases hcl : cssLiteral '}' (cssBody (cssWhitespace s2) []).2 with
            | ok s5 =>
              dsimp only
              have e5 := cssLiteral_ok_length _ _ _ hcl
              exact ih f2 _ _ (by omega) (by omega)
            | error serr =>
              dsimp only
              have e5 := cssLiteral_error_eq _ _ _ hcl
              by_cases hr : (cssIgnoreUntil ['}'] serr).1 = some '}'
              · rw [if_pos hr, if_pos hr]
                obtain ⟨h6, h7⟩ := cssIgnoreUntil_fst_some _ serr _ hr
                have h8 : ((cssIgnoreUntil ['}'] serr).2.drop 1).length + 1
                    = (cssIgnoreUntil ['}'] serr).2.length := by
                  cases hy : (cssIgnoreUntil ['}'] serr).2 with
                  | nil => exact absurd hy h7
                  | cons a b => simp
                have h9 := cssWhitespace_length_le ((cssIgnoreUntil ['}'] serr).2.drop 1)
                have h10 : serr.length ≤ (cssBody (cssWhitespace s2) []).2.length := by
                  rw [e5]
                exact ih f2 _ _ (by omega) (by omega)
              · rw [if_neg hr, if_neg hr]
          | error serr =>
            have e2 := cssLiteral_error_eq _ _ _ hbr
            dsimp only
            by_cases hr : (cssIgnoreUntil ['}'] serr).1 = some '}'
            · rw [if_pos hr, if_pos hr]
              obtain ⟨h6, h7⟩ := cssIgnoreUntil_fst_some _ serr _ hr
              have h8 : ((cssIgnoreUntil ['}'] serr).2.drop 1).length + 1
                  = (cssIgnoreUntil ['}'] serr).2.length := by
                cases hy : (cssIgnoreUntil ['}'] serr).2 with
                | nil => exact absurd hy h7
                | cons a b => simp
              have h9 := cssWhitespace_length_le ((cssIgnoreUntil ['}'] serr).2.drop 1)
              subst e2
              exact ih f2 _ _ (by omega) (by omega)
            · rw [if_neg hr, if_neg hr]
        | error serr =>
          have e1 := cssSelector_error_length _ _ hsel
          dsimp only
          by_cases hr : (cssIgnoreUntil ['}'] serr).1 = some '}'
          · rw [if_pos hr, if_pos hr]
            obtain ⟨h6, h7⟩ := cssIgnoreUntil_fst_some _ serr _ hr
            have h8 : ((cssIgnoreUntil ['}'] serr).2.drop 1).length + 1
                = (cssIgnoreUntil ['}'] serr).2.length := by
              cases hy : (cssIgnoreUntil ['}'] serr).2 with
              | nil => exact absurd hy h7
              | cons a b => simp
            have h9 := cssWhitespace_length_le ((cssIgnoreUntil ['}'] serr).2.drop 1)
            exact ih f2 _ _ (by omega) (by omega)
          · rw [if_neg hr, if_neg hr]

/- CSSParser(s).parse(): total for every input string; all internal parse
   exceptions are caught by the two recovery loops, and the iteration
   budget is always sufficient (cssParseLoopF_congr). -/
def cssParse (s : String) : List (Selector × List (String × String)) :=
  cssParseLoopF (s.toList.length + 1) s.toList []

-- ==========================================================================
-- Style values and the cascade (cssparser.py style / INHERITED_PROPERTIES)
-- ==========================================================================

/- A CSS property value string.  The source stores plain strings and
   inspects them with endswith("%") / endswith-"px" slicing plus float();
   values of the form "<number>px" are embedded as `px`, "<number>%" as
   `pct`, and everything else as `raw`.  The float arithmetic the source
   performs on these numbers is exact for the inputs of interest, so the
   numbers are `Rat`. -/
inductive CssVal where
  | px (q : Rat)
  | pct (q : Rat)
  | raw (s : String)
deriving Repr, DecidableEq

/- The value string of a CssVal (used where the source passes the string
   on, e.g. as a font key component; numeric rendering is only ever applied
   to raw values in the flows verified here). -/
def CssVal.asStr : CssVal → String
  | .raw s => s
  | .px q => toString q ++ "px"
  | .pct q => toString q ++ "%"

def INHERITED_PROPERTIES : List (String × CssVal) :=
  [("font-size", .px 16), ("font-style", .raw "normal"),
   ("font-weight", .raw "normal"), ("color", .raw "black")]

/- The parent-chain walk of DescendantSelector.matches: does the matcher f
   accept some strict ancestor (each ancestor paired with its own
   remaining ancestor chain)? -/
def ancWalk (f : HNode → List HNode → Bool) : List HNode → Bool
  | [] => false
  | p :: rest => f p rest || ancWalk f rest

/- TagSelector.matches / DescendantSelector.matches.  A node is given
   together with its chain of ancestors (nearest first), which stands for
   the source's mutable .parent references. -/
def selMatches : Selector → HNode → List HNode → Bool
  | .tag t, n, _ =>
      match n with
      | .helem tg _ _ => t == tg
      | .htext _ => false
  | .desc a d, n, anc => selMatches d n anc && ancWalk (selMatches a) anc
termination_by structural s => s

/- Styled nodes: the node tree after the cascade has populated .style. -/
inductive SNode where
  | stext (text : String) (style : List (String × CssVal))
  | selem (tag : String) (attributes : List (String × String))
      (style : List (String × CssVal)) (children : List SNode)
deriving Repr

def SNode.style : SNode → List (String × CssVal)
  | .stext _ st => st
  | .selem _ _ st _ => st

def SNode.kids : SNode → List SNode
  | .stext _ _ => []
  | .selem _ _ _ c => c

/- The per-node body of cssparser.style(), in two stages.  cascadeValues:
   inheritance seeding then rule application in list order (`none` marks a
   missing inherited key on the parent, where the source would raise
   KeyError).  styleOf: percentage font-size resolution against the
   parent's already-resolved size (the root resolves against the fixed
   default 16px) — resolution happens BEFORE the children are styled;
   `none` also marks float() applied to a non-pixel parent font-size. -/
def cascadeValues (rules : List (Selector × List (String × CssVal)))
    (parentStyle : Option (List (String × CssVal)))
    (node : HNode) (anc : List HNode) : Option (List (String × CssVal)) := do
  let seeded ← INHERITED_PROPERTIES.foldlM (fun acc pv =>
      match parentStyle with
      | some ps => (dictGet ps pv.1).map (fun v => dictInsert acc pv.1 v)
      | none => some (dictInsert acc pv.1 pv.2)) []
  return rules.foldl (fun st rule =>
      if selMatches rule.1 node anc then
        rule.2.foldl (fun st2 pv => dictInsert st2 pv.1 pv.2) st
      else st) seeded

def styleOf (rules : List (Selector × List (String × CssVal)))
    (parentStyle : Option (List (String × CssVal)))
    (node : HNode) (anc : List HNode) : Option (List (String × CssVal)) := do
  let applied ← cascadeValues rules parentStyle node anc
  match dictGet applied "font-size" with
  | some (CssVal.pct p) =>
      match parentStyle with
      | some ps =>
          match dictGet ps "font-size" with
          | some (CssVal.px r) => some (dictInsert applied "font-size" (.px (p / 100 * r)))
          | _ => none
      | none => some (dictInsert applied "font-size" (.px (p / 100 * 16)))
  | _ => some applied

/- cssparser.style(): style this node, then recurse into the children with
   this node's final style as the parent style. -/
mutual
def styleNode (rules : List (Selector × List (String × CssVal)))
    (parentStyle : Option (List (String × CssVal)))
    (node : HNode) (anc : List HNode) : Option SNode := do
  let st ← styleOf rules parentStyle node anc
  match node with
  | .htext t => return .stext t st
  | .helem tag attrs children =>
      return .selem tag attrs st
        (← styleKids rules (some st) children (node :: anc))
termination_by structural node
def styleKids (rules : List (Selector × List (String × CssVal)))
    (parentStyle : Option (List (String × CssVal)))
    (l : List HNode) (anc : List HNode) : Option (List SNode) :=
  match l with
  | [] => some []
  | h :: t => do
      let sh ← styleNode rules parentStyle h anc
      let st ← styleKids rules parentStyle t anc
      return sh :: st
termination_by structural l
end

/- browser.py: style(self.tree, sorted(rules, key=cascade_priority)).
   Python's sorted() is a stable ascending sort. -/
def sortRulesByPriority (rules : List (Selector × List (String × CssVal))) :
    List (Selector × List (String × CssVal)) :=
  pySorted (fun a b => cascade_priority a ≤ cascade_priority b) rules

def applyStyles (rules : List (Selector × List (String × CssVal)))
    (root : HNode) : Option SNode :=
  styleNode (sortRulesByPriority rules) none root []

-- ==========================================================================
-- Layout engine (layout.py)
-- ==========================================================================

/- Abstract tkinter font metrics.  get_font's cache key is
   (size, weight, style); measure/metrics are queried per font. -/
structure Fonts where
  measure : Int → String → String → String → Int
  ascent : Int → String → String → Int
  descent : Int → String → String → Int
  linespace : Int → String → String → Int

/- int(float(size_str[:-2])) on a "<number>px" value; `none` models the
   ValueError on any other value string. -/
def fontSizeInt : CssVal → Option Int
  | .px q => some (pyTrunc q)
  | _ => none

/- node.style.get(key, default). -/
def styleGetD (n : SNode) (k : String) (d : CssVal) : CssVal :=
  (dictGet n.style k).getD d

/- The inline-construction state of BlockLayout: the per-line word lists
   (children that are LineLayouts), plus cursor_x and the (write-only in
   the active code path) centre_line flag.  The last list is the line
   currently being filled. -/
structure InlineState where
  lines : List (List (SNode × String))
  cursor_x : Int
  centre_line : Bool
deriving Repr

/- BlockLayout.new_line. -/
def newLine (st : InlineState) : InlineState :=
  { st with cursor_x := 0, lines := st.lines ++ [[]] }

/- BlockLayout.add_word_to_line: append a TextLayout to the given (last)
   line and advance cursor_x using the default 16px roman font as the
   estimation font. -/
def addWordToLine (F : Fonts) (node : SNode) (word : String) (st : InlineState) :
    InlineState :=
  let last := (st.lines.getLast?).getD []
  let space := if last.isEmpty then 0 else F.measure 16 "normal" "roman" " "
  { st with
    lines := st.lines.dropLast ++ [last ++ [(node, word)]],
    cursor_x := st.cursor_x + F.measure 16 "normal" "roman" word + space }

/- BlockLayout.word: style lookups fall back to defaults via .get();
   the node's own font measures the word; overflow starts a new line.
   `none` models int(float(...)) raising on a non-pixel font-size value
   (the color lookup is performed by the source but unused). -/
def wordFn (F : Fonts) (width : Int) (node : SNode) (word : String)
    (st : InlineState) : Option InlineState := do
  let weightV := styleGetD node "font-weight" (.raw "normal")
  let styleV := styleGetD node "font-style" (.raw "normal")
  let styleStr := if styleV.asStr = "normal" then "roman" else styleV.asStr
  let sizeV := styleGetD node "font-size" (.px 16)
  let size ← fontSizeInt sizeV
  let w := F.measure size weightV.asStr styleStr word
  let st1 := if st.lines.isEmpty then newLine st else st
  let st2 := if st1.cursor_x + w > width then newLine st1 else st1
  return addWordToLine F node word st2

/- The word loop of BlockLayout.recurse on a Text node:
   `for word in node.text.split(): self.word(node, word)`. -/
def recurseWords (F : Fonts) (width : Int) (n : SNode) (ws : List String)
    (st : InlineState) : Option InlineState :=
  match ws with
  | [] => some st
  | w :: rest => do
      let st1 ← wordFn F width n w st
      recurseWords F width n rest st1

/- BlockLayout.recurse. -/
mutual
def recurseNode (F : Fonts) (width : Int) (n : SNode) (st : InlineState) :
    Option InlineState :=
  match n with
  | .stext t sty =>
      recurseWords F width (.stext t sty) (pySplit t) st
  | .selem tag _ _ children =>
      let st1 := if tag == "br" then newLine st else st
      let st2 := if tag == "h1" then { st1 with centre_line := true } else st1
      recurseKids F width children st2
termination_by structural n
def recurseKids (F : Fonts) (width : Int) (l : List SNode) (st : InlineState) :
    Option InlineState :=
  match l with
  | [] => some st
  | c :: rest => do
      let st1 ← recurseNode F width c st
      recurseKids F width rest st1
termination_by structural l
end

/- A laid-out TextLayout. -/
structure PlacedWord where
  word : String
  fontSize : Int
  fontWeight : String
  fontStyle : String
  x : Int
  y : Int
  width : Int
  height : Int
deriving Repr, DecidableEq

/- TextLayout.layout's font extraction: direct style[...] lookups, which
   raise a generic KeyError when a key is missing; the "normal" → "roman"
   substitution; int(float(...[:-2])) for the size. -/
def textLayoutFont (n : SNode) : Option (Int × String × String) := do
  let wv ← dictGet n.style "font-weight"
  let sv ← dictGet n.style "font-style"
  let stStr := if sv.asStr = "normal" then "roman" else sv.asStr
  let fv ← dictGet n.style "font-size"
  let size ← fontSizeInt fv
  return (size, wv.asStr, stStr)

def plAscent (F : Fonts) (p : PlacedWord) : Int :=
  F.ascent p.fontSize p.fontWeight p.fontStyle

def plDescent (F : Fonts) (p : PlacedWord) : Int :=
  F.descent p.fontSize p.fontWeight p.fontStyle

/- TextLayout.layout for each word of a line, in order: width from the
   node's font, x cumulative after the previous word plus one space-glyph
   in the previous word's font, y filled in by LineLayout afterwards. -/
def layoutWords (F : Fonts) (lineX : Int) (prev : Option PlacedWord) :
    List (SNode × String) → Option (List PlacedWord)
  | [] => some []
  | (n, w) :: rest => do
      let (size, weight, styl) ← textLayoutFont n
      let wd := F.measure size weight styl w
      let x := match prev with
        | none => lineX
        | some p => p.x + p.width + F.measure p.fontSize p.fontWeight p.fontStyle " "
      let pw : PlacedWord :=
        ⟨w, size, weight, styl, x, 0, wd, F.linespace size weight styl⟩
      let rest1 ← layoutWords F lineX (some pw) rest
      return pw :: rest1

structure LineBox where
  x : Int
  y : Int
  width : Int
  height : Int
  words : List PlacedWord
deriving Repr, DecidableEq

/- LineLayout.layout: lay out the words, then baseline-align them
   (baseline = top + max ascent; word y = baseline - own ascent;
   height = max ascent + max descent; an empty line has height 0). -/
def layoutLine (F : Fonts) (x y width : Int) (ws : List (SNode × String)) :
    Option LineBox := do
  let placed ← layoutWords F x none ws
  match placed with
  | [] => return ⟨x, y, width, 0, []⟩
  | _ =>
      let maxAscent := pyMax (placed.map (plAscent F))
      let baseline := y + maxAscent
      let words := placed.map (fun p => { p with y := baseline - plAscent F p })
      let maxDescent := pyMax (placed.map (plDescent F))
      return ⟨x, y, width, maxAscent + maxDescent, words⟩

/- The geometry tree below the document: block boxes (in either layout
   mode) and line boxes. -/
inductive LBox where
  | block (x y width height : Int) (children : List LBox)
  | line (lb : LineBox)
deriving Repr

def LBox.boxHeight : LBox → Int
  | .block _ _ _ h _ => h
  | .line lb => lb.height

def LBox.boxY : LBox → Int
  | .block _ y _ _ _ => y
  | .line lb => lb.y

def LBox.boxX : LBox → Int
  | .block x _ _ _ _ => x
  | .line lb => lb.x

/- BlockLayout.layout_mode, split by node kind (a Text node is always
   inline; an Element is block when some Element child has a block-level
   tag, inline when it has children but none block-level, else block). -/
def layoutModeElem (children : List SNode) : String :=
  if children.any (fun c =>
      match c with
      | .selem t _ _ _ => BLOCK_ELEMENTS.contains t
      | _ => false) then "block"
  else if ¬ children.isEmpty then "inline"
  else "block"

def layoutMode : SNode → String
  | .stext _ _ => "inline"
  | .selem _ _ _ children => layoutModeElem children

/- LineLayout y-threading: each line's y is the previous line's
   y + height, the first line starting at the parent's y. -/
def layoutLines (F : Fonts) (x curY width : Int) :
    List (List (SNode × String)) → Option (List LBox × Int)
  | [] => some ([], 0)
  | ws :: rest => do
      let lb ← layoutLine F x curY width ws
      let (ls, h) ← layoutLines F x (curY + lb.height) width rest
      return (.line lb :: ls, lb.height + h)

/- BlockLayout.layout: position from parent/previous sibling, then
   block-mode child stacking or inline-mode line construction (self.new_line();
   self.recurse(self.node); then the children lay out); height is the sum
   of the children's heights in both modes. -/
mutual
def blockLayout (F : Fonts) (n : SNode) (x y width : Int) : Option LBox :=
  match n with
  | .stext t sty => do
      -- layout_mode(Text) = "inline"
      let st ← recurseNode F width (.stext t sty) (newLine ⟨[], 0, false⟩)
      let (lineBoxes, h) ← layoutLines F x y width st.lines
      return .block x y width h lineBoxes
  | .selem tag attrs sty children =>
      if layoutModeElem children = "block" then do
        let (kids, h) ← blockKids F children x y width
        return .block x y width h kids
      else do
        let st ← recurseNode F width (.selem tag attrs sty children)
          (newLine ⟨[], 0, false⟩)
        let (lineBoxes, h) ← layoutLines F x y width st.lines
        return .block x y width h lineBoxes
termination_by structural n
def blockKids (F : Fonts) (l : List SNode) (x curY width : Int) :
    Option (List LBox × Int) :=
  match l with
  | [] => some ([], 0)
  | c :: rest => do
      let b ← blockLayout F c x curY width
      let (bs, h) ← blockKids F rest x (curY + b.boxHeight) width
      return (b :: bs, b.boxHeight + h)
termination_by structural l
end

/- DocumentLayout.layout: content width = page width minus an HSTEP margin
   on each side, content origin (HSTEP, VSTEP); one child BlockLayout for
   the whole tree (the page width stands for the WIDTH global the source
   reads). -/
def documentLayout (F : Fonts) (pageWidth : Int) (n : SNode) : Option LBox :=
  blockLayout F n HSTEP VSTEP (pageWidth - 2 * HSTEP)

/- End-to-end: parse, cascade with sorted rules, lay out. -/
def renderPage (F : Fonts) (pageWidth : Int) (htmlText : String)
    (rules : List (Selector × List (String × CssVal))) : Option LBox := do
  let root ← htmlParse htmlText
  let styled ← applyStyles rules root
  documentLayout F pageWidth styled

/- All placed words of a geometry tree, in document order. -/
mutual
def LBox.allWords : LBox → List PlacedWord
  | .line lb => lb.words
  | .block _ _ _ _ kids => allWordsList kids
termination_by structural b => b
def allWordsList : List LBox → List PlacedWord
  | [] => []
  | b :: rest => b.allWords ++ allWordsList rest
termination_by structural l => l
end

/- A concrete metrics instantiation for witnesses: a monospace font whose
   glyphs are square (width = size per character, ascent = size,
   descent = 0). -/
def Fmono : Fonts where
  measure := fun size _ _ t => size * (t.length : Int)
  ascent := fun size _ _ => size
  descent := fun _ _ _ => 0
  linespace := fun size _ _ => size

/-- C10: Rect.contains_point is half-open: it holds iff left ≤ x < right and
top ≤ y < bottom, so points on the right and bottom edges are excluded. -/
theorem C10_contains_point_half_open :
    ∀ (r : Rect) (x y : Int),
      (r.contains_point x y = true ↔
        (r.left ≤ x ∧ x < r.right ∧ r.top ≤ y ∧ y < r.bottom)) ∧
      r.contains_point r.right y = false ∧
      r.contains_point x r.bottom = false := by
  intro r x y
  refine ⟨?_, ?_, ?_⟩ <;> simp [Rect.contains_point] <;> omega

/-- C1: the claim that HTMLParser.parse never raises fails: on the input `<>`
get_attributes splits the empty tag text into an empty list and evaluates
parts[0], an IndexError (modelled as none); a well-formed input does parse. -/
theorem C1_parse_raises_on_empty_tag :
    htmlParse "<>" = none ∧ get_attributes "" = none ∧
    (htmlParse "<p>Hi</p>").isSome = true :=
  ⟨rfl, rfl, rfl⟩

/-- C2: the claim that `<h1>Hi</h1>` at page width 800 centers the word fails:
the produced geometry places `Hi` at the content-box left edge x = 13, not at
the centered position HSTEP + (774 - 32) / 2 = 384. -/
theorem C2_h1_word_not_centered :
    (renderPage Fmono 800 "<h1>Hi</h1>" []).map
        (fun b => b.allWords.map (fun w => (w.word, w.x, w.width)))
      = some [("Hi", 13, 32)] ∧
    HSTEP + (800 - 2 * HSTEP - 32) / 2 = 384 ∧ (13 : Int) ≠ 384 := by
  refine ⟨rfl, by decide, by decide⟩

/-- C8: CSSParser.parse is total: the parse loop returns the same result for
every fuel at least its budget (it always terminates), and malformed
selectors or declarations are skipped by the recovery handlers while the
surrounding valid rules are kept. -/
theorem C8_css_parse_total_recovery :
    (∀ (s : String) (k : Nat),
      cssParseLoopF (s.toList.length + 1 + k) s.toList [] = cssParse s) ∧
    cssParse "x \x7b color: red; \x7d !bad \x7b q \x7d h1 \x7b font-weight: bold; \x7d"
      = [(Selector.tag "x", [("color", "red")]),
         (Selector.tag "h1", [("font-weight", "bold")])] ∧
    cssParse "p \x7b color red; font-size: 10px; \x7d"
      = [(Selector.tag "p", [("font-size", "10px")])] ∧
    cssParse "p \x7b color: red; " = [] ∧
    cssParse "p \x7b color: red \x7d q \x7b a: b; \x7d"
      = [(Selector.tag "p", [("color", "red")]),
         (Selector.tag "q", [("a", "b")])] := by
  refine ⟨?_, rfl, rfl, rfl, rfl⟩
  intro s k
  exact cssParseLoopF_congr _ _ _ _ (by omega) (by omega)

/- helper: the width BlockLayout.word measures for a word. -/
def wordMeasuredWidth (F : Fonts) (n : SNode) (word : String) : Option Int :=
  (fontSizeInt (styleGetD n "font-size" (.px 16))).map (fun size =>
    F.measure size (styleGetD n "font-weight" (.raw "normal")).asStr
      (if (styleGetD n "font-style" (.raw "normal")).asStr = "normal" then "roman"
       else (styleGetD n "font-style" (.raw "normal")).asStr) word)

/-- C3: counterexample to hyphenation: `hyphenation` measures 176 > 100, and
the hyphenated prefix `hy-` (48) would fit in 100, yet the engine emits the
whole unmodified word alone on a fresh line. -/
theorem C3_no_hyphenation_counterexample :
    wordMeasuredWidth Fmono (.stext "hyphenation" [("font-size", CssVal.px 16)])
        "hyphenation" = some 176 ∧
    (0 : Int) + 176 > 100 ∧
    Fmono.measure 16 "normal" "roman" "hy-" = 48 ∧
    (0 : Int) + 48 ≤ 100 ∧
    (wordFn Fmono 100 (.stext "hyphenation" [("font-size", CssVal.px 16)])
        "hyphenation" ⟨[[]], 0, false⟩).map
        (fun st => st.lines.map (fun l => l.map Prod.snd))
      = some [[], ["hyphenation"]] := by
  refine ⟨rfl, by decide, rfl, by decide, rfl⟩

/-- C3: amended overflow behaviour: whenever the next word would overflow the
available width, the engine starts a new line and places the whole unmodified
word as its only word (the cursor measured in the default font); no
hyphenation is ever attempted. -/
theorem C3_overflow_fresh_line_whole_word (F : Fonts) (width : Int) (n : SNode) (word : String)
    (st : InlineState) (w : Int)
    (hw : wordMeasuredWidth F n word = some w)
    (hne : st.lines ≠ [])
    (hover : st.cursor_x + w > width) :
    wordFn F width n word st = some
      { lines := st.lines ++ [[(n, word)]],
        cursor_x := F.measure 16 "normal" "roman" word,
        centre_line := st.centre_line } := by
  unfold wordMeasuredWidth at hw
  cases hs : fontSizeInt (styleGetD n "font-size" (.px 16)) with
  | none => rw [hs] at hw; cases hw
  | some size =>
    rw [hs] at hw
    simp only [Option.map_some'] at hw
    injection hw with hw
    subst hw
    have hnotempty : st.lines.isEmpty = false := by
      cases hl : st.lines with
      | nil => exact absurd hl hne
      | cons a b => rfl
    simp only [wordFn, hs, Option.some_bind, Option.pure_def, hnotempty,
      Bool.false_eq_true, if_false]
    simp only [bind, Option.bind]
    rw [if_pos hover]
    simp [addWordToLine, newLine, List.getLast?_concat, List.dropLast_concat]

/-- C3: witness: the amended overflow behaviour at the concrete overflowing
word `hyphenation` in a 100px-wide block. -/
theorem C3_overflow_fresh_line_witness :
    wordMeasuredWidth Fmono (.stext "hyphenation" [("font-size", CssVal.px 16)])
        "hyphenation" = some 176 ∧
    ([[]] : List (List (SNode × String))) ≠ [] ∧
    ((0 : Int) + 176 > 100) ∧
    wordFn Fmono 100 (.stext "hyphenation" [("font-size", CssVal.px 16)])
        "hyphenation" ⟨[[]], 0, false⟩
      = some ⟨[[], [(.stext "hyphenation" [("font-size", CssVal.px 16)], "hyphenation")]],
          176, false⟩ :=
  ⟨rfl, by simp, by decide,
   C3_overflow_fresh_line_whole_word Fmono 100 (.stext "hyphenation" [("font-size", CssVal.px 16)]) "hyphenation"
     ⟨[[]], 0, false⟩ 176 rfl (by simp) (by decide)⟩

/- The geometry-relevant projection of the inline state: the stored source
   nodes erased. -/
def stripNodes (st : InlineState) : List (List String) × Int × Bool :=
  (st.lines.map (fun l => l.map Prod.snd), st.cursor_x, st.centre_line)

theorem wordFn_node_irrelevant (F : Fonts) (width : Int) (word : String)
    (st : InlineState) (n1 n2 : SNode)
    (hw : styleGetD n1 "font-weight" (.raw "normal")
        = styleGetD n2 "font-weight" (.raw "normal"))
    (hs : styleGetD n1 "font-style" (.raw "normal")
        = styleGetD n2 "font-style" (.raw "normal"))
    (hz : styleGetD n1 "font-size" (.px 16) = styleGetD n2 "font-size" (.px 16)) :
    (wordFn F width n1 word st).map stripNodes
      = (wordFn F width n2 word st).map stripNodes := by
  simp only [wordFn, hw, hs, hz]
  cases fontSizeInt (styleGetD n2 "font-size" (.px 16)) with
  | none => rfl
  | some size =>
    simp only [bind, Option.bind, Option.pure_def, Option.map_some']
    simp [stripNodes, addWordToLine]

/-- C9: counterexample to a loud precondition failure: a text node with an
empty style lays out identically (nodes erased) to one carrying
INHERITED_PROPERTIES and word() succeeds on it, while textLayoutFont on the
same node is none (the KeyError), not a distinct reported error. -/
theorem C9_silent_defaults_counterexample :
    (wordFn Fmono 774 (.stext "x" []) "hello" ⟨[[]], 0, false⟩).map stripNodes
      = (wordFn Fmono 774 (.stext "x" INHERITED_PROPERTIES) "hello"
          ⟨[[]], 0, false⟩).map stripNodes ∧
    (wordFn Fmono 774 (.stext "x" []) "hello" ⟨[[]], 0, false⟩).isSome = true ∧
    textLayoutFont (.stext "x" []) = none :=
  ⟨rfl, rfl, rfl⟩

/-- C9: amended: with font properties missing from a node's style,
BlockLayout.word silently substitutes the defaults (normal weight, normal
style, 16px) — its geometry equals that of the same node styled with the
inherited defaults — while TextLayout.layout raises a plain KeyError
(modelled none); there is no distinct precondition failure. -/
theorem C9_missing_style_behaviour :
    (∀ (F : Fonts) (width : Int) (word t : String) (st : InlineState),
      (wordFn F width (.stext t []) word st).map stripNodes
        = (wordFn F width (.stext t INHERITED_PROPERTIES) word st).map stripNodes) ∧
    (∀ t : String, textLayoutFont (.stext t []) = none) := by
  constructor
  · intro F width word t st
    exact wordFn_node_irrelevant F width word st _ _ rfl rfl rfl
  · intro t
    rfl

theorem plAscent_setY (F : Fonts) (p : PlacedWord) (v : Int) :
    plAscent F { p with y := v } = plAscent F p := rfl

theorem plDescent_setY (F : Fonts) (p : PlacedWord) (v : Int) :
    plDescent F { p with y := v } = plDescent F p := rfl

/-- C6: every non-empty LineBox has height = max ascent + max descent over its
words, and each word's y is the line top plus the max ascent minus the word's
own ascent (one shared baseline), so the difference of two words' tops equals
the difference of their ascents. -/
theorem C6_baseline_alignment (F : Fonts) (x y width : Int) (ws : List (SNode × String)) (lb : LineBox)
    (h : layoutLine F x y width ws = some lb) (hne : lb.words ≠ []) :
    lb.height = pyMax (lb.words.map (plAscent F)) + pyMax (lb.words.map (plDescent F)) ∧
    (∀ w ∈ lb.words, w.y = (y + pyMax (lb.words.map (plAscent F))) - plAscent F w) ∧
    (∀ w1 ∈ lb.words, ∀ w2 ∈ lb.words,
      w1.y - w2.y = plAscent F w2 - plAscent F w1) := by
  unfold layoutLine at h
  cases hp : layoutWords F x none ws with
  | none => rw [hp] at h; cases h
  | some placed =>
    rw [hp] at h
    simp only [bind, Option.bind] at h
    cases placed with
    | nil =>
      simp only [Option.pure_def, Option.some.injEq] at h
      subst h
      exact absurd rfl hne
    | cons p ps =>
      simp only [Option.pure_def, Option.some.injEq] at h
      subst h
      have hmapA : (((p :: ps).map (fun q =>
          { q with y := y + pyMax ((p :: ps).map (plAscent F)) - plAscent F q })).map
            (plAscent F)) = (p :: ps).map (plAscent F) := by
        simp only [List.map_map]
        rfl
      have hmapD : (((p :: ps).map (fun q =>
          { q with y := y + pyMax ((p :: ps).map (plAscent F)) - plAscent F q })).map
            (plDescent F)) = (p :: ps).map (plDescent F) := by
        simp only [List.map_map]
        rfl
      refine ⟨?_, ?_, ?_⟩
      · simp only [hmapA, hmapD]
      · intro w hw
        simp only [hmapA]
        simp only [List.mem_map] at hw
        obtain ⟨q, hq, rfl⟩ := hw
        simp [plAscent_setY]
      · intro w1 hw1 w2 hw2
        simp only [List.mem_map] at hw1 hw2
        obtain ⟨q1, hq1, rfl⟩ := hw1
        obtain ⟨q2, hq2, rfl⟩ := hw2
        simp [plAscent_setY]

def styFor (q : Rat) : List (String × CssVal) :=
  [("font-size", .px q), ("font-style", .raw "normal"),
   ("font-weight", .raw "normal"), ("color", .raw "black")]

/-- C4: a percentage font-size resolves against the parent's already-resolved
pixel size before the children are styled: pct p with parent px r yields
px (p / 100 * r); concretely 32px parent with 50% child gives 16px, and a
40px root with nested 50% rules gives 20px then 10px. -/
theorem C4_pct_font_size_resolution :
    (∀ (rules : List (Selector × List (String × CssVal)))
       (ps applied : List (String × CssVal)) (node : HNode) (anc : List HNode)
       (p r : Rat),
      cascadeValues rules (some ps) node anc = some applied →
      dictGet applied "font-size" = some (.pct p) →
      dictGet ps "font-size" = some (.px r) →
      styleOf rules (some ps) node anc
        = some (dictInsert applied "font-size" (.px (p / 100 * r)))) ∧
    (∀ (rules : List (Selector × List (String × CssVal)))
       (parentStyle : Option (List (String × CssVal))) (tag : String)
       (attrs : List (String × String)) (children : List HNode) (anc : List HNode),
      styleNode rules parentStyle (.helem tag attrs children) anc
        = (styleOf rules parentStyle (.helem tag attrs children) anc).bind
            (fun st => (styleKids rules (some st) children
                ((HNode.helem tag attrs children) :: anc)).bind
              (fun kids => some (.selem tag attrs st kids)))) ∧
    (applyStyles [(Selector.tag "p", [("font-size", CssVal.px 32)]),
                  (Selector.tag "q", [("font-size", CssVal.pct 50)])]
        (HNode.helem "p" [] [HNode.helem "q" [] []])).map
        (fun n => (dictGet n.style "font-size",
          n.kids.map (fun k => dictGet k.style "font-size")))
      = some (some (.px 32), [some (.px (50 / 100 * 32))]) ∧
    ((50 : Rat) / 100 * 32) = 16 ∧
    (applyStyles [(Selector.tag "a", [("font-size", CssVal.px 40)]),
                  (Selector.tag "b", [("font-size", CssVal.pct 50)]),
                  (Selector.tag "c", [("font-size", CssVal.pct 50)])]
        (HNode.helem "a" [] [HNode.helem "b" [] [HNode.helem "c" [] []]])).map
        (fun n => (dictGet n.style "font-size",
          n.kids.map (fun k => (dictGet k.style "font-size",
            k.kids.map (fun g => dictGet g.style "font-size")))))
      = some (some (.px 40), [(some (.px (50 / 100 * 40)),
          [some (.px (50 / 100 * (50 / 100 * 40)))])]) ∧
    ((50 : Rat) / 100 * 40) = 20 ∧ ((50 : Rat) / 100 * (50 / 100 * 40)) = 10 ∧
    CssVal.px ((50 : Rat) / 100 * 16) ≠ CssVal.px 10 := by
  refine ⟨?_, ?_, rfl, by norm_num, rfl, by norm_num, by norm_num,
    by simp only [ne_eq, CssVal.px.injEq]; norm_num⟩
  · intro rules ps applied node anc p r h1 h2 h3
    unfold styleOf
    rw [h1]
    simp only [bind, Option.bind]
    rw [h2, h3]
  · intro rules parentStyle tag attrs children anc
    unfold styleNode
    rfl

/-- C4: witness: the percentage-resolution equation at a concrete 50% node
under a 32px parent. -/
theorem C4_pct_font_size_resolution_witness :
    ∃ applied : List (String × CssVal),
      cascadeValues [(Selector.tag "q", [("font-size", CssVal.pct 50)])]
          (some (styFor 32)) (.helem "q" [] []) [] = some applied ∧
      dictGet applied "font-size" = some (.pct 50) ∧
      dictGet (styFor 32) "font-size" = some (.px 32) ∧
      styleOf [(Selector.tag "q", [("font-size", CssVal.pct 50)])]
          (some (styFor 32)) (.helem "q" [] []) []
        = some (dictInsert applied "font-size" (.px (50 / 100 * 32))) := by
  refine ⟨_, rfl, rfl, rfl, ?_⟩
  exact C4_pct_font_size_resolution.1 _ _ _ _ _ _ _ rfl rfl rfl

theorem ancWalk_iff (f : HNode → List HNode → Bool) (anc : List HNode) :
    ancWalk f anc = true ↔
      ∃ i : Fin anc.length, f (anc.get i) (anc.drop (i.1 + 1)) = true := by
  induction anc with
  | nil => simp [ancWalk]
  | cons p rest ih =>
    simp only [ancWalk, Bool.or_eq_true, ih]
    constructor
    · rintro (h | ⟨i, h⟩)
      · exact ⟨⟨0, by simp⟩, h⟩
      · exact ⟨⟨i.1 + 1, by simpa using i.2⟩, by simpa using h⟩
    · rintro ⟨⟨i, hi⟩, h⟩
      cases i with
      | zero => left; simpa using h
      | succ j =>
        right
        exact ⟨⟨j, by simpa using hi⟩, by simpa using h⟩

theorem mem_stableInsert {α : Type} (le : α → α → Bool) (x b : α) (l : List α) :
    b ∈ stableInsert le x l ↔ b = x ∨ b ∈ l := by
  induction l with
  | nil => simp [stableInsert]
  | cons y ys ih =>
    by_cases h : le x y = true
    · simp only [stableInsert, if_pos h, List.mem_cons]
    · simp only [stableInsert, if_neg h, List.mem_cons, ih]
      tauto

theorem stableInsert_sorted {α : Type} (le : α → α → Bool)
    (htot : ∀ a b, le a b = true ∨ le b a = true)
    (htrans : ∀ a b c, le a b = true → le b c = true → le a c = true)
    (x : α) (l : List α) (hl : l.Pairwise (fun a b => le a b = true)) :
    (stableInsert le x l).Pairwise (fun a b => le a b = true) := by
  induction l with
  | nil => simp [stableInsert]
  | cons y ys ih =>
    rcases List.pairwise_cons.1 hl with ⟨hy, hys⟩
    by_cases h : le x y = true
    · simp only [stableInsert, if_pos h]
      refine List.pairwise_cons.2 ⟨?_, hl⟩
      intro b hb
      rcases List.mem_cons.1 hb with rfl | hb2
      · exact h
      · exact htrans x y b h (hy b hb2)
    · simp only [stableInsert, if_neg h]
      refine List.pairwise_cons.2 ⟨?_, ih hys⟩
      intro b hb
      rcases (mem_stableInsert le x b ys).1 hb with rfl | hb2
      · rcases htot b y with h2 | h2
        · exact absurd h2 h
        · exact h2
      · exact hy b hb2

theorem pySorted_sorted {α : Type} (le : α → α → Bool)
    (htot : ∀ a b, le a b = true ∨ le b a = true)
    (htrans : ∀ a b c, le a b = true → le b c = true → le a c = true)
    (l : List α) :
    (pySorted le l).Pairwise (fun a b => le a b = true) := by
  induction l with
  | nil => simp [pySorted]
  | cons x xs ih => exact stableInsert_sorted le htot htrans x (pySorted le xs) ih

/-- C5: TagSelector matches exactly the Elements with an equal tag name;
DescendantSelector matches iff its descendant part matches the node and some
strict ancestor matches its ancestor part; the rules are sorted into
ascending cascade_priority order before application, so a later
(higher-priority) matching rule overwrites; concretely, with the rules
p → red (priority 1) and div p → blue (priority 2), a p nested inside a div
resolves color blue and a p not inside any div resolves red. -/
theorem C5_selector_matching_priority_order :
    (∀ (t tg : String) (attrs : List (String × String)) (ch anc : List HNode),
      selMatches (.tag t) (.helem tg attrs ch) anc = (t == tg)) ∧
    (∀ (t s : String) (anc : List HNode),
      selMatches (.tag t) (.htext s) anc = false) ∧
    (∀ (a d : Selector) (n : HNode) (anc : List HNode),
      selMatches (.desc a d) n anc
        = (selMatches d n anc && ancWalk (selMatches a) anc)) ∧
    (∀ (f : HNode → List HNode → Bool) (anc : List HNode),
      ancWalk f anc = true ↔
        ∃ i : Fin anc.length, f (anc.get i) (anc.drop (i.1 + 1)) = true) ∧
    (∀ rules : List (Selector × List (String × CssVal)),
      (sortRulesByPriority rules).Pairwise
        (fun a b => cascade_priority a ≤ cascade_priority b)) ∧
    cascade_priority ((Selector.tag "p"), [("color", CssVal.raw "red")]) = 1 ∧
    cascade_priority ((Selector.desc (.tag "div") (.tag "p")),
        [("color", CssVal.raw "blue")]) = 2 ∧
    (applyStyles [(Selector.desc (.tag "div") (.tag "p"),
                     [("color", CssVal.raw "blue")]),
                  (Selector.tag "p", [("color", CssVal.raw "red")])]
        (.helem "div" [] [.helem "section" [] [.helem "p" [] []]])).map
        (fun n => n.kids.map (fun k => k.kids.map
          (fun g => dictGet g.style "color")))
      = some [[some (CssVal.raw "blue")]] ∧
    (applyStyles [(Selector.desc (.tag "div") (.tag "p"),
                     [("color", CssVal.raw "blue")]),
                  (Selector.tag "p", [("color", CssVal.raw "red")])]
        (.helem "section" [] [.helem "p" [] []])).map
        (fun n => n.kids.map (fun k => dictGet k.style "color"))
      = some [some (CssVal.raw "red")] := by
  refine ⟨fun _ _ _ _ _ => rfl, fun _ _ _ => rfl, fun _ _ _ _ => rfl,
    ancWalk_iff, ?_, rfl, rfl, rfl, rfl⟩
  intro rules
  have := pySorted_sorted
    (fun (a b : Selector × List (String × CssVal)) =>
      decide (cascade_priority a ≤ cascade_priority b))
    (fun a b => by
      rcases le_total (cascade_priority a) (cascade_priority b) with h | h
      · left; exact decide_eq_true h
      · right; exact decide_eq_true h)
    (fun a b c h1 h2 =>
      decide_eq_true (le_trans (of_decide_eq_true h1) (of_decide_eq_true h2)))
    rules
  refine this.imp ?_
  intro a b h
  exact of_decide_eq_true h

/-- C6: witness: a concrete line holding a 16px and a 32px word shares one
baseline: tops 36 and 20, height 32. -/
theorem C6_baseline_alignment_witness :
    ∃ lb : LineBox,
      layoutLine Fmono 13 20 774
        [(.stext "ab" (styFor 16), "ab"), (.stext "cd" (styFor 32), "cd")]
        = some lb ∧
      lb.words ≠ [] ∧
      lb.height = pyMax (lb.words.map (plAscent Fmono))
          + pyMax (lb.words.map (plDescent Fmono)) ∧
      (∀ w ∈ lb.words,
        w.y = (20 + pyMax (lb.words.map (plAscent Fmono))) - plAscent Fmono w) ∧
      (∀ w1 ∈ lb.words, ∀ w2 ∈ lb.words,
        w1.y - w2.y = plAscent Fmono w2 - plAscent Fmono w1) ∧
      lb.words.map (fun w => (w.word, w.y)) = [("ab", 36), ("cd", 20)] ∧
      lb.height = 32 := by
  refine ⟨_, rfl, by decide, ?_, ?_, ?_, rfl, rfl⟩
  · exact (C6_baseline_alignment Fmono 13 20 774
      [(.stext "ab" (styFor 16), "ab"), (.stext "cd" (styFor 32), "cd")] _
      rfl (by decide)).1
  · exact (C6_baseline_alignment Fmono 13 20 774
      [(.stext "ab" (styFor 16), "ab"), (.stext "cd" (styFor 32), "cd")] _
      rfl (by decide)).2.1
  · exact (C6_baseline_alignment Fmono 13 20 774
      [(.stext "ab" (styFor 16), "ab"), (.stext "cd" (styFor 32), "cd")] _
      rfl (by decide)).2.2

/- Contiguous vertical stacking from a starting y. -/
def stackedFrom (curY : Int) : List LBox → Bool
  | [] => true
  | b :: rest => (b.boxY == curY) && stackedFrom (curY + b.boxHeight) rest

theorem blockLayout_shape (F : Fonts) (n : SNode) (x y width : Int) (b : LBox)
    (h : blockLayout F n x y width = some b) :
    ∃ (hh : Int) (kids : List LBox), b = .block x y width hh kids := by
  cases n with
  | stext t sty =>
    unfold blockLayout at h
    simp only [bind, Option.bind] at h
    cases hr : recurseNode F width (.stext t sty) (newLine ⟨[], 0, false⟩) with
    | none => rw [hr] at h; cases h
    | some st =>
      rw [hr] at h
      dsimp only at h
      cases hl : layoutLines F x y width st.lines with
      | none => rw [hl] at h; cases h
      | some p =>
        rw [hl] at h
        dsimp only at h
        simp only [Option.pure_def, Option.some.injEq] at h
        exact ⟨p.2, p.1, h.symm⟩
  | selem tag attrs sty children =>
    unfold blockLayout at h
    by_cases hm : layoutModeElem children = "block"
    · rw [if_pos hm] at h
      simp only [bind, Option.bind] at h
      cases hk : blockKids F children x y width with
      | none => rw [hk] at h; cases h
      | some p =>
        rw [hk] at h
        dsimp only at h
        simp only [Option.pure_def, Option.some.injEq] at h
        exact ⟨p.2, p.1, h.symm⟩
    · rw [if_neg hm] at h
      simp only [bind, Option.bind] at h
      cases hr : recurseNode F width (.selem tag attrs sty children)
          (newLine ⟨[], 0, false⟩) with
      | none => rw [hr] at h; cases h
      | some st =>
        rw [hr] at h
        dsimp only at h
        cases hl : layoutLines F x y width st.lines with
        | none => rw [hl] at h; cases h
        | some p =>
          rw [hl] at h
          dsimp only at h
          simp only [Option.pure_def, Option.some.injEq] at h
          exact ⟨p.2, p.1, h.symm⟩

theorem blockLayout_boxY (F : Fonts) (n : SNode) (x y width : Int) (b : LBox)
    (h : blockLayout F n x y width = some b) : b.boxY = y := by
  obtain ⟨hh, kids, rfl⟩ := blockLayout_shape F n x y width b h
  rfl

theorem blockKids_spec (F : Fonts) (l : List SNode) (x : Int) (width : Int)
    (curY : Int) (bs : List LBox) (h : Int)
    (hk : blockKids F l x curY width = some (bs, h)) :
    h = (bs.map LBox.boxHeight).sum ∧ stackedFrom curY bs = true := by
  induction l generalizing curY bs h with
  | nil =>
    unfold blockKids at hk
    simp only [Option.some.injEq, Prod.mk.injEq] at hk
    obtain ⟨rfl, rfl⟩ := hk.symm
    exact ⟨rfl, rfl⟩
  | cons c rest ih =>
    unfold blockKids at hk
    simp only [bind, Option.bind] at hk
    cases hb : blockLayout F c x curY width with
    | none => rw [hb] at hk; cases hk
    | some b =>
      rw [hb] at hk
      dsimp only at hk
      cases hrest : blockKids F rest x (curY + b.boxHeight) width with
      | none => rw [hrest] at hk; cases hk
      | some p =>
        obtain ⟨bs2, h2⟩ := p
        rw [hrest] at hk
        dsimp only at hk
        simp only [Option.pure_def, Option.some.injEq, Prod.mk.injEq] at hk
        obtain ⟨rfl, rfl⟩ := hk.symm
        obtain ⟨hsum, hstack⟩ := ih _ _ _ hrest
        refine ⟨by simp [hsum], ?_⟩
        simp only [stackedFrom, Bool.and_eq_true, beq_iff_eq]
        exact ⟨blockLayout_boxY F c x curY width b hb, hstack⟩

/- Projection of a block box: its height and its children's (y, height). -/
def blockProfile : LBox → Option (Int × List (Int × Int))
  | .block _ _ _ h kids => some (h, kids.map (fun k => (k.boxY, k.boxHeight)))
  | .line _ => none

/-- C7: block-mode stacking: the children's total height is the sum of their
heights and each child's y is the previous child's y plus the previous
child's height starting at the parent's y, both in general and for a
concrete block with children of heights 10, 20 and 30 (height 60, children
at y 0, 10, 30). -/
theorem C7_block_stacking :
    (∀ (F : Fonts) (l : List SNode) (x curY width : Int)
       (bs : List LBox) (h : Int),
      blockKids F l x curY width = some (bs, h) →
      h = (bs.map LBox.boxHeight).sum ∧ stackedFrom curY bs = true) ∧
    (∀ (F : Fonts) (tag : String) (attrs : List (String × String))
       (sty : List (String × CssVal)) (children : List SNode)
       (x y width : Int) (b : LBox),
      layoutModeElem children = "block" →
      blockLayout F (.selem tag attrs sty children) x y width = some b →
      ∃ kids : List LBox,
        blockKids F children x y width = some (kids, (kids.map LBox.boxHeight).sum) ∧
        b = .block x y width ((kids.map LBox.boxHeight).sum) kids ∧
        stackedFrom y kids = true) ∧
    (blockLayout Fmono
        (.selem "div" [] (styFor 16)
          [.selem "p" [] (styFor 10) [.stext "a" (styFor 10)],
           .selem "p" [] (styFor 20) [.stext "b" (styFor 20)],
           .selem "p" [] (styFor 30) [.stext "c" (styFor 30)]])
        0 0 500).bind blockProfile
      = some (60, [(0, 10), (10, 20), (30, 30)]) ∧
    (10 : Int) + 20 + 30 = 60 := by
  refine ⟨fun F l x curY width bs h hk => blockKids_spec F l x width curY bs h hk,
    ?_, rfl, by decide⟩
  intro F tag attrs sty children x y width b hm hb
  unfold blockLayout at hb
  rw [if_pos hm] at hb
  simp only [bind, Option.bind] at hb
  cases hk : blockKids F children x y width with
  | none => rw [hk] at hb; cases hb
  | some p =>
    obtain ⟨kids, hh⟩ := p
    rw [hk] at hb
    dsimp only at hb
    simp only [Option.pure_def, Option.some.injEq] at hb
    obtain ⟨hsum, hstack⟩ := blockKids_spec F children x width y kids hh hk
    subst hsum
    exact ⟨kids, rfl, hb.symm, hstack⟩

/-- C7: witness: the stacking invariant instantiated at the concrete
three-child block. -/
theorem C7_block_stacking_witness :
    ∃ (bs : List LBox) (h : Int),
      blockKids Fmono
        [.selem "p" [] (styFor 10) [.stext "a" (styFor 10)],
         .selem "p" [] (styFor 20) [.stext "b" (styFor 20)],
         .selem "p" [] (styFor 30) [.stext "c" (styFor 30)]]
        0 0 500 = some (bs, h) ∧
      h = (bs.map LBox.boxHeight).sum ∧ stackedFrom 0 bs = true := by
  have hex : ∃ (bs : List LBox) (h : Int),
      blockKids Fmono
        [.selem "p" [] (styFor 10) [.stext "a" (styFor 10)],
         .selem "p" [] (styFor 20) [.stext "b" (styFor 20)],
         .selem "p" [] (styFor 30) [.stext "c" (styFor 30)]]
        0 0 500 = some (bs, h) := ⟨_, _, rfl⟩
  obtain ⟨bs, h, hk⟩ := hex
  exact ⟨bs, h, hk, C7_block_stacking.1 Fmono _ 0 0 500 bs h hk⟩
